import Mathlib

/-!
# Verification of the ThermodynamicsSimulator core

Shallow embedding of `src/simulation/heat_conductor.py` and
`src/simulation/propagator.py`.

Conventions of the embedding:
* Python floats are modelled as exact rationals (`ℚ`).  Division by zero,
  which raises `ZeroDivisionError` in Python, is Lean's total division
  (`x / 0 = 0`); no claim below exercises a zero divisor.
* Python non-negative integer parameters (`cube_size`, `delay`,
  `max_iterations`) are modelled as `ℕ`; lattice coordinates are `ℤ` triples
  because direction offsets may leave `[0, size)`.
* The numpy lattice is modelled as a total function `Coord → ℚ` together with
  the coordinate list `gridCoords size` enumerating the actual cells;
  in-place mutation becomes functional update.
* `random.shuffle(directions)` is modelled by an oracle `sh : ℕ → List Coord`
  giving the direction order for the n-th shuffle performed during the run;
  theorems about "every run" quantify over all oracles whose outputs are
  permutations of the direction list.
* The `while` loop is given fuel (it is in fact bounded by
  `max_iterations - iterations`, and `propagate` passes enough fuel;
  `loop_isSome` proves the fuel is never exhausted).
-/

/-- Material parameters of `HeatConductor.__init__`
(src/simulation/heat_conductor.py). -/
structure HeatConductor where
  k : ℚ
  c_p : ℚ
  rho : ℚ
  min_delta : ℚ
  conduction_time : ℚ
  delta_x : ℚ
  a : ℚ
deriving DecidableEq

/-- Embedding of `HeatConductor.calculate_temperature_change`: Fourier-law
heat rate, total heat over the timestep, cell mass, temperature change,
clamped to `0` when its magnitude is below `min_delta`. -/
def HeatConductor.calculate_temperature_change (hc : HeatConductor)
    (initial_temp neighbour_temp : ℚ) : ℚ :=
  let q := -hc.k * hc.a * (initial_temp - neighbour_temp) / hc.delta_x
  let delta_q := q * hc.conduction_time
  let mass := hc.rho * hc.a * hc.delta_x
  let delta_temp := delta_q / (mass * hc.c_p)
  if |delta_temp| < hc.min_delta then 0 else delta_temp

/-- The unclamped temperature delta computed by the kernel. -/
def rawDelta (hc : HeatConductor) (initial_temp neighbour_temp : ℚ) : ℚ :=
  -hc.k * hc.a * (initial_temp - neighbour_temp) / hc.delta_x *
    hc.conduction_time / (hc.rho * hc.a * hc.delta_x * hc.c_p)

lemma calc_eq_clamp (hc : HeatConductor) (T₁ T₂ : ℚ) :
    hc.calculate_temperature_change T₁ T₂ =
      if |rawDelta hc T₁ T₂| < hc.min_delta then 0 else rawDelta hc T₁ T₂ := rfl

/-- The cross-sectional area cancels from the unclamped delta. -/
lemma rawDelta_area_free (k c_p rho md t dx a T₁ T₂ : ℚ) (ha : a ≠ 0) :
    rawDelta ⟨k, c_p, rho, md, t, dx, a⟩ T₁ T₂ =
      -k * (T₁ - T₂) / dx * t / (rho * dx * c_p) := by
  unfold rawDelta
  rw [show -k * a * (T₁ - T₂) / dx * t = a * (-k * (T₁ - T₂) / dx * t) by
        rw [show -k * a * (T₁ - T₂) = a * (-k * (T₁ - T₂)) by ring, mul_div_assoc,
          mul_assoc],
      show rho * a * dx * c_p = a * (rho * dx * c_p) by ring,
      mul_div_mul_left _ _ ha]

/-- C3: for positive areas `a₁ ≠ a₂` with every other parameter fixed, the
kernel output is identical: the cross-sectional-area parameter has no
observable effect on `calculate_temperature_change`. -/
theorem claim_C3_area_inert (k c_p rho md t dx a₁ a₂ T₁ T₂ : ℚ)
    (h₁ : 0 < a₁) (h₂ : 0 < a₂) (hne : a₁ ≠ a₂) :
    HeatConductor.calculate_temperature_change ⟨k, c_p, rho, md, t, dx, a₁⟩ T₁ T₂ =
      HeatConductor.calculate_temperature_change ⟨k, c_p, rho, md, t, dx, a₂⟩ T₁ T₂ := by
  rw [calc_eq_clamp, calc_eq_clamp,
    rawDelta_area_free k c_p rho md t dx a₁ T₁ T₂ h₁.ne',
    rawDelta_area_free k c_p rho md t dx a₂ T₁ T₂ h₂.ne']

/-- Witness for C3 at the repository's default conductor parameters with
areas 1 and 2. -/
theorem claim_C3_area_inert_witness :
    (0 : ℚ) < 1 ∧ (0 : ℚ) < 2 ∧ (1 : ℚ) ≠ 2 ∧
      HeatConductor.calculate_temperature_change
          ⟨237, 900, 2700, 1/100000, 1, 1, 1⟩ 1 0 =
        HeatConductor.calculate_temperature_change
          ⟨237, 900, 2700, 1/100000, 1, 1, 2⟩ 1 0 :=
  ⟨by simp, by simp, by simp,
    claim_C3_area_inert 237 900 2700 (1/100000) 1 1 1 2 1 0
      (by simp) (by simp) (by simp)⟩

/-- Antisymmetry of the unclamped delta under argument swap. -/
lemma rawDelta_swap (hc : HeatConductor) (T₁ T₂ : ℚ) :
    rawDelta hc T₂ T₁ = -rawDelta hc T₁ T₂ := by
  unfold rawDelta; ring

/-- With strictly positive kernel parameters and `T₂ < T₁`, the unclamped
delta is strictly negative. -/
lemma rawDelta_neg (k c_p rho md t dx a : ℚ)
    (hk : 0 < k) (hcp : 0 < c_p) (hrho : 0 < rho) (ht : 0 < t)
    (hdx : 0 < dx) (ha : 0 < a) (T₁ T₂ : ℚ) (hT : T₂ < T₁) :
    rawDelta ⟨k, c_p, rho, md, t, dx, a⟩ T₁ T₂ < 0 := by
  unfold rawDelta
  apply div_neg_of_neg_of_pos
  · apply mul_neg_of_neg_of_pos _ ht
    apply div_neg_of_neg_of_pos _ hdx
    rw [show -k * a * (T₁ - T₂) = -(k * a * (T₁ - T₂)) by ring, neg_lt_zero]
    exact mul_pos (mul_pos hk ha) (sub_pos.mpr hT)
  · positivity

/-- C4: with all conductor parameters positive, the kernel output is
non-positive whenever `T₂ < T₁`, and the output is exactly antisymmetric
under swapping the two temperatures, the `min_delta` clamp firing
identically for both orders. -/
theorem claim_C4_sign_and_antisymmetry (k c_p rho md t dx a : ℚ)
    (hk : 0 < k) (hcp : 0 < c_p) (hrho : 0 < rho) (hmd : 0 < md)
    (ht : 0 < t) (hdx : 0 < dx) (ha : 0 < a) :
    (∀ T₁ T₂ : ℚ, T₂ < T₁ →
        HeatConductor.calculate_temperature_change ⟨k, c_p, rho, md, t, dx, a⟩ T₁ T₂ ≤ 0) ∧
      (∀ T₁ T₂ : ℚ,
        HeatConductor.calculate_temperature_change ⟨k, c_p, rho, md, t, dx, a⟩ T₁ T₂ =
          -HeatConductor.calculate_temperature_change ⟨k, c_p, rho, md, t, dx, a⟩ T₂ T₁) := by
  constructor
  · intro T₁ T₂ hT
    rw [calc_eq_clamp]
    split
    · exact le_refl 0
    · exact le_of_lt (rawDelta_neg k c_p rho md t dx a hk hcp hrho ht hdx ha T₁ T₂ hT)
  · intro T₁ T₂
    rw [calc_eq_clamp, calc_eq_clamp, rawDelta_swap, abs_neg]
    split
    · simp
    · simp

/-- Witness for C4 at the repository's default conductor parameters with
temperatures 1 and 0. -/
theorem claim_C4_sign_and_antisymmetry_witness :
    HeatConductor.calculate_temperature_change
        ⟨237, 900, 2700, 1/100000, 1, 1, 1⟩ 1 0 ≤ 0 ∧
      HeatConductor.calculate_temperature_change
          ⟨237, 900, 2700, 1/100000, 1, 1, 1⟩ 1 0 =
        -HeatConductor.calculate_temperature_change
          ⟨237, 900, 2700, 1/100000, 1, 1, 1⟩ 0 1 :=
  ⟨(claim_C4_sign_and_antisymmetry 237 900 2700 (1/100000) 1 1 1
      (by simp) (by simp) (by simp) (by simp) (by simp) (by simp)
      (by simp)).1 1 0 (by simp),
    (claim_C4_sign_and_antisymmetry 237 900 2700 (1/100000) 1 1 1
      (by simp) (by simp) (by simp) (by simp) (by simp) (by simp)
      (by simp)).2 1 0⟩

/-! ## Data model of the diffusion engine -/

/-- A lattice coordinate: an integer triple (direction offsets may leave
the lattice, so components live in `ℤ`). -/
abbrev Coord := ℤ × ℤ × ℤ

/-- The lattice, as a total function from coordinates to temperatures. -/
abbrev Cube := Coord → ℚ

/-- One snapshot: the lattice serialised cell by cell (`cube.copy()`). -/
abbrev Snap := List (List (List ℚ))

/-- Functional update of the lattice at one cell (numpy in-place
assignment `cube[x, y, z] = v`). -/
def upd (c : Cube) (p : Coord) (v : ℚ) : Cube := fun q => if q = p then v else c q

/-- Run parameters stored by `Propagator.__init__`
(src/simulation/propagator.py). -/
structure Propagator where
  cube_size : ℕ
  origin : Coord
  start_temp : ℚ
  end_temp : ℚ
  increment : ℚ
  delay : ℕ
  max_iterations : ℕ
  delta_tolerance : ℚ
  heat_conductor : HeatConductor

/-- Embedding of `Propagator.__init__` as a fallible constructor, so that
claims about construction-time validation can be stated.  The Python
`__init__` body only assigns the nine attributes and contains no check and
no `raise`, so the embedding returns `Except.ok` on every input. -/
def Propagator.init (cube_size : ℕ) (origin : Coord)
    (start_temp end_temp increment : ℚ) (delay max_iterations : ℕ)
    (delta_tolerance : ℚ) (heat_conductor : HeatConductor) :
    Except String Propagator :=
  .ok ⟨cube_size, origin, start_temp, end_temp, increment, delay,
    max_iterations, delta_tolerance, heat_conductor⟩

/-- The six axis-aligned unit directions, in the order of the source. -/
def directions : List Coord :=
  [(1, 0, 0), (-1, 0, 0), (0, 1, 0), (0, -1, 0), (0, 0, 1), (0, 0, -1)]

/-- The bounds check `0 <= nx < cube_size and 0 <= ny < cube_size and
0 <= nz < cube_size`. -/
def inBounds (size : ℕ) (p : Coord) : Prop :=
  0 ≤ p.1 ∧ p.1 < (size : ℤ) ∧ 0 ≤ p.2.1 ∧ p.2.1 < (size : ℤ) ∧
    0 ≤ p.2.2 ∧ p.2.2 < (size : ℤ)

instance (size : ℕ) (p : Coord) : Decidable (inBounds size p) := by
  unfold inBounds; infer_instance

/-- All cell coordinates of the `size × size × size` lattice. -/
def gridCoords (size : ℕ) : List Coord :=
  (List.range size).flatMap fun (x : ℕ) =>
    (List.range size).flatMap fun (y : ℕ) =>
      (List.range size).map fun (z : ℕ) => ((x : ℤ), (y : ℤ), (z : ℤ))

/-- Total temperature over the lattice cells. -/
def gridSum (size : ℕ) (c : Cube) : ℚ := ((gridCoords size).map c).sum

/-- The convergence test
`np.all(np.isclose(cube, end_temp, rtol=0, atol=delta_tolerance))`:
with `rtol=0`, `np.isclose` is `|a - b| <= atol` cellwise. -/
def allClose (P : Propagator) (c : Cube) : Prop :=
  ∀ p ∈ gridCoords P.cube_size, |c p - P.end_temp| ≤ P.delta_tolerance

instance (P : Propagator) (c : Cube) : Decidable (allClose P c) := by
  unfold allClose; exact List.decidableBAll _ _

/-- `cube.copy()`: the lattice serialised to a nested list of shape
`(size, size, size)`. -/
def snapshotOf (size : ℕ) (c : Cube) : Snap :=
  (List.range size).map fun (x : ℕ) =>
    (List.range size).map fun (y : ℕ) =>
      (List.range size).map fun (z : ℕ) => c ((x : ℤ), (y : ℤ), (z : ℤ))

/-- The mutable state of one run of `propagate`: the lattice, the batch of
propagation queues, the recorded snapshots, the two step counters, and the
index of the next shuffle to be drawn from the randomness oracle. -/
structure SimState where
  cube : Cube
  queues : List (List Coord)
  snaps : List Snap
  prop_index : ℕ
  iterations : ℕ
  rng : ℕ

/-- Processing of a single direction `d` for the popped cell `pt`:
the bounds-and-temperature guard, the conduction kernel, and the two
update-and-append branches of the inner `for` loop.  The state is the
current content of the active queue (after the pop and earlier appends of
the same processing pass) and the lattice. -/
def dirStep (P : Propagator) (pt : Coord) (st : List Coord × Cube)
    (d : Coord) : List Coord × Cube :=
  let q := st.1
  let c := st.2
  let n : Coord := (pt.1 + d.1, pt.2.1 + d.2.1, pt.2.2 + d.2.2)
  if inBounds P.cube_size n ∧ c pt > c n then
    let diff := P.heat_conductor.calculate_temperature_change (c pt) (c n)
    if diff < 0 ∧ n ∉ q then
      let c₁ := upd c n (c n - diff)
      (q ++ [n], upd c₁ pt (c₁ pt + diff))
    else if 0 ≤ diff ∧ pt ∉ q then
      let c₁ := upd c n (c n + diff)
      (q ++ [pt], upd c₁ pt (c₁ pt - diff))
    else (q, c)
  else (q, c)

/-- One queue's processing inside a step: if the queue is non-empty, pop
its oldest coordinate, draw one shuffle from the oracle and fold the six
directions; an empty queue is left untouched and consumes no shuffle.
Returns the new queue content, the new lattice, and the new oracle index. -/
def processQueue (P : Propagator) (sh : ℕ → List Coord) (g : ℕ)
    (q : List Coord) (c : Cube) : List Coord × Cube × ℕ :=
  match q with
  | [] => ([], c, g)
  | pt :: rest =>
    let r := (sh g).foldl (dirStep P pt) (rest, c)
    (r.1, r.2, g + 1)

/-- Processing of the whole queue batch.  The source iterates queue
indices from last to first and removes a queue that is empty after its
processing; this function receives the reversed batch, so its head is the
newest queue, processed first. -/
def processRev (P : Propagator) (sh : ℕ → List Coord) :
    List (List Coord) → Cube → ℕ → List (List Coord) × Cube × ℕ
  | [], c, g => ([], c, g)
  | q :: qs, c, g =>
    let r₁ := processQueue P sh g q c
    let r₂ := processRev P sh qs r₁.2.1 r₁.2.2
    (if r₁.1 = [] then r₂.1 else r₁.1 :: r₂.1, r₂.2.1, r₂.2.2)

/-- The reheat/seed decision at the top of a step: on
`propagation_index % delay == 0`, bump the origin by `increment` when it
is still below `end_temp` and append a fresh queue holding only the
origin; otherwise, while `propagation_index < delay`, only append such a
queue. -/
def seedPhase (P : Propagator) (s : SimState) : Cube × List (List Coord) :=
  if s.prop_index % P.delay = 0 then
    (if s.cube P.origin < P.end_temp then
        upd s.cube P.origin (s.cube P.origin + P.increment)
      else s.cube,
      s.queues ++ [[P.origin]])
  else if s.prop_index < P.delay then (s.cube, s.queues ++ [[P.origin]])
  else (s.cube, s.queues)

/-- The state at the `break` taken when the convergence check fires:
`iterations` was already incremented, the seed phase already ran, every
queue is cleared, and no snapshot is appended. -/
def convergedState (P : Propagator) (s : SimState) : SimState :=
  { s with cube := (seedPhase P s).1,
           queues := ((seedPhase P s).2).map (fun _ => ([] : List Coord)),
           iterations := s.iterations + 1 }

/-- The state after one completed (non-breaking) pass of the `while` body:
seed phase, queue-batch processing in reverse order, snapshot append, and
the `propagation_index` increment. -/
def completedState (P : Propagator) (sh : ℕ → List Coord) (s : SimState) :
    SimState :=
  let c₁ := (seedPhase P s).1
  let qs₁ := (seedPhase P s).2
  let r := processRev P sh qs₁.reverse c₁ s.rng
  { cube := r.2.1,
    queues := r.1.reverse,
    snaps := s.snaps ++ [snapshotOf P.cube_size r.2.1],
    prop_index := s.prop_index + 1,
    iterations := s.iterations + 1,
    rng := r.2.2 }

/-- One pass of the `while` body, after the loop guard: the `Bool` is
`true` exactly when the convergence check fired and the loop `break`s. -/
def runStep (P : Propagator) (sh : ℕ → List Coord) (s : SimState) :
    SimState × Bool :=
  if allClose P (seedPhase P s).1 then (convergedState P s, true)
  else (completedState P sh s, false)

/-- How a run ends: the spec's three terminal states, read off the exit
taken by the `while` loop (empty batch, iteration cap, convergence
`break`). -/
inductive TermState
  | stalled
  | exhausted
  | converged
deriving DecidableEq

/-- The `while propagation_queues and iterations < max_iterations` loop,
with explicit fuel.  The loop is in fact bounded by
`max_iterations - iterations` (see `loop_isSome`), and `propagateRun`
passes `max_iterations` as fuel, so the `none` case is never reached. -/
def loop (P : Propagator) (sh : ℕ → List Coord) :
    ℕ → SimState → Option (SimState × TermState)
  | 0, s =>
    if s.queues = [] then some (s, .stalled)
    else if P.max_iterations ≤ s.iterations then some (s, .exhausted)
    else none
  | fuel + 1, s =>
    if s.queues = [] then some (s, .stalled)
    else if P.max_iterations ≤ s.iterations then some (s, .exhausted)
    else if (runStep P sh s).2 then some ((runStep P sh s).1, .converged)
    else loop P sh fuel (runStep P sh s).1

/-- The state set up by `propagate` before the loop: the lattice filled
with `start_temp` except for the origin at `start_temp + increment`, one
queue holding only the origin, and no snapshot. -/
def initState (P : Propagator) : SimState :=
  { cube := upd (fun _ => P.start_temp) P.origin (P.start_temp + P.increment),
    queues := [[P.origin]],
    snaps := [],
    prop_index := 0,
    iterations := 0,
    rng := 0 }

/-- The run loop of `Propagator.propagate`, from the initial state. -/
def propagateRun (P : Propagator) (sh : ℕ → List Coord) :
    Option (SimState × TermState) :=
  loop P sh P.max_iterations (initState P)

/-- Embedding of `Propagator.propagate` including its final
`print(cube_states[-1])`: indexing `[-1]` raises `IndexError` when the
recorded snapshot list is empty, so the embedding returns an error in
exactly that case and the snapshot list otherwise. -/
def propagate (P : Propagator) (sh : ℕ → List Coord) :
    Except String (List Snap) :=
  match propagateRun P sh with
  | some r => if r.1.snaps = [] then .error "IndexError" else .ok r.1.snaps
  | none => .error "insufficient fuel"

/-- Both branches of a step increment `iterations` by exactly one. -/
lemma runStep_iterations (P : Propagator) (sh : ℕ → List Coord)
    (s : SimState) : (runStep P sh s).1.iterations = s.iterations + 1 := by
  unfold runStep convergedState completedState
  split <;> rfl

/-- The fuel of `loop` is never exhausted when it covers the remaining
iteration budget. -/
lemma loop_isSome (P : Propagator) (sh : ℕ → List Coord) :
    ∀ (fuel : ℕ) (s : SimState), P.max_iterations ≤ s.iterations + fuel →
      (loop P sh fuel s).isSome := by
  intro fuel
  induction fuel with
  | zero =>
    intro s h
    unfold loop
    split
    · rfl
    · rw [if_pos (by omega)]; rfl
  | succ n ih =>
    intro s h
    unfold loop
    split
    · rfl
    · split
      · rfl
      · split
        · rfl
        · exact ih _ (by rw [runStep_iterations]; omega)

/-- `propagate` never runs out of fuel. -/
lemma propagateRun_isSome (P : Propagator) (sh : ℕ → List Coord) :
    (propagateRun P sh).isSome :=
  loop_isSome P sh P.max_iterations (initState P) (by simp [initState])

/-! ## Lattice lemmas -/

@[simp] lemma upd_same (c : Cube) (p : Coord) (v : ℚ) : upd c p v p = v := by
  simp [upd]

lemma upd_ne (c : Cube) (p : Coord) (v : ℚ) {q : Coord} (h : q ≠ p) :
    upd c p v q = c q := by simp [upd, h]

lemma mem_gridCoords {size : ℕ} {p : Coord} :
    p ∈ gridCoords size ↔ inBounds size p := by
  obtain ⟨x, y, z⟩ := p
  simp only [gridCoords, List.mem_flatMap, List.mem_map, List.mem_range, inBounds]
  constructor
  · rintro ⟨a, ha, b, hb, e, he, heq⟩
    simp only [Prod.mk.injEq] at heq
    obtain ⟨rfl, rfl, rfl⟩ := heq
    refine ⟨by omega, by omega, by omega, by omega, by omega, by omega⟩
  · rintro ⟨h1, h2, h3, h4, h5, h6⟩
    refine ⟨x.toNat, by omega, y.toNat, by omega, z.toNat, by omega, ?_⟩
    simp only [Prod.mk.injEq]
    omega

/-- A `flatMap` whose blocks are duplicate-free and pairwise
non-overlapping is duplicate-free. -/
lemma nodup_flatMap_of {α β : Type} {l : List α} {f : α → List β}
    (hl : l.Nodup) (hf : ∀ a ∈ l, (f a).Nodup)
    (hsep : ∀ a₁ ∈ l, ∀ a₂ ∈ l, ∀ b, b ∈ f a₁ → b ∈ f a₂ → a₁ = a₂) :
    (l.flatMap f).Nodup := by
  rw [List.nodup_flatMap]
  refine ⟨hf, ?_⟩
  refine List.Pairwise.imp_of_mem ?_ hl
  intro a₁ a₂ h₁ h₂ hne b hb hb'
  exact hne (hsep a₁ h₁ a₂ h₂ b hb hb')

lemma gridCoords_nodup (size : ℕ) : (gridCoords size).Nodup := by
  unfold gridCoords
  refine nodup_flatMap_of (List.nodup_range size) (fun x _ => ?_) ?_
  · refine nodup_flatMap_of (List.nodup_range size) (fun y _ => ?_) ?_
    · refine List.Nodup.map ?_ (List.nodup_range size)
      intro a b h
      simp only [Prod.mk.injEq] at h
      omega
    · intro y₁ _ y₂ _ b hb hb'
      simp only [List.mem_map, List.mem_range] at hb hb'
      obtain ⟨z₁, _, hz₁⟩ := hb
      obtain ⟨z₂, _, hz₂⟩ := hb'
      rw [← hz₂] at hz₁
      simp only [Prod.mk.injEq] at hz₁
      omega
  · intro x₁ _ x₂ _ b hb hb'
    simp only [List.mem_flatMap, List.mem_map, List.mem_range] at hb hb'
    obtain ⟨y₁, _, z₁, _, hz₁⟩ := hb
    obtain ⟨y₂, _, z₂, _, hz₂⟩ := hb'
    rw [← hz₂] at hz₁
    simp only [Prod.mk.injEq] at hz₁
    omega

lemma sum_map_upd_mem {l : List Coord} (hl : l.Nodup) (c : Cube) {p : Coord}
    (v : ℚ) (hp : p ∈ l) :
    (l.map (upd c p v)).sum = (l.map c).sum - c p + v := by
  induction l with
  | nil => cases hp
  | cons a l ih =>
    rcases List.mem_cons.mp hp with h | h
    · subst h
      have hnotin : p ∉ l := (List.nodup_cons.mp hl).1
      simp only [List.map_cons, List.sum_cons, upd_same]
      rw [List.map_congr_left fun x hx =>
        upd_ne c p v (fun he => hnotin (he ▸ hx))]
      ring
    · have hne : a ≠ p := by
        intro he
        exact (List.nodup_cons.mp hl).1 (he ▸ h)
      simp only [List.map_cons, List.sum_cons, upd_ne c p v hne]
      rw [ih (List.nodup_cons.mp hl).2 h]
      ring

lemma sum_map_upd_not_mem {l : List Coord} (c : Cube) {p : Coord} (v : ℚ)
    (hp : p ∉ l) : (l.map (upd c p v)).sum = (l.map c).sum := by
  rw [List.map_congr_left fun x hx => upd_ne c p v (fun he => hp (he ▸ hx))]

lemma gridSum_upd_mem (size : ℕ) (c : Cube) {p : Coord} (v : ℚ)
    (hp : inBounds size p) :
    gridSum size (upd c p v) = gridSum size c - c p + v :=
  sum_map_upd_mem (gridCoords_nodup size) c v (mem_gridCoords.mpr hp)

/-- Value bound for a non-negative lattice: each cell is at most the total. -/
lemma cell_le_gridSum {size : ℕ} {c : Cube}
    (hpos : ∀ p ∈ gridCoords size, 0 ≤ c p) {p : Coord}
    (hp : p ∈ gridCoords size) : c p ≤ gridSum size c := by
  refine List.single_le_sum ?_ (c p) (List.mem_map_of_mem c hp)
  intro x hx
  obtain ⟨q, hq, rfl⟩ := List.mem_map.mp hx
  exact hpos q hq

/-- Two distinct entries of a non-negative duplicate-free list together do
not exceed its sum. -/
lemma pair_le_sum {l : List Coord} (hnd : l.Nodup) (c : Cube)
    (hpos : ∀ x ∈ l, 0 ≤ c x) {p q : Coord}
    (hp : p ∈ l) (hq : q ∈ l) (hne : p ≠ q) :
    c p + c q ≤ (l.map c).sum := by
  induction l with
  | nil => cases hp
  | cons a l ih =>
    have hpos' : ∀ x ∈ l, 0 ≤ c x := fun x hx => hpos x (List.mem_cons_of_mem a hx)
    have hsingle : ∀ r ∈ l, c r ≤ (l.map c).sum := by
      intro r hr
      refine List.single_le_sum ?_ (c r) (List.mem_map_of_mem c hr)
      intro x hx
      obtain ⟨s, hs, rfl⟩ := List.mem_map.mp hx
      exact hpos' s hs
    simp only [List.map_cons, List.sum_cons]
    rcases List.mem_cons.mp hp with hpa | hpl
    · subst hpa
      have hql : q ∈ l := by
        rcases List.mem_cons.mp hq with h | h
        · exact absurd h.symm hne
        · exact h
      have := hsingle q hql
      linarith
    · rcases List.mem_cons.mp hq with hqa | hql
      · subst hqa
        have := hsingle p hpl
        linarith
      · have := ih (List.nodup_cons.mp hnd).2 hpos' hpl hql
        have ha := hpos a (List.mem_cons_self a l)
        linarith

/-- Two distinct cells of a non-negative lattice together do not exceed
the total. -/
lemma two_cells_le_gridSum {size : ℕ} {c : Cube}
    (hpos : ∀ p ∈ gridCoords size, 0 ≤ c p) {p q : Coord}
    (hp : p ∈ gridCoords size) (hq : q ∈ gridCoords size) (hne : p ≠ q) :
    c p + c q ≤ gridSum size c :=
  pair_le_sum (gridCoords_nodup size) c hpos hp hq hne

/-- Fold invariance: a property preserved by each step of a fold is
preserved by the whole fold. -/
lemma foldl_preserve {α : Type} {β : Type} (f : α → β → α) (Inv : α → Prop)
    (h : ∀ a b, Inv a → Inv (f a b)) :
    ∀ (l : List β) (a : α), Inv a → Inv (l.foldl f a) := by
  intro l
  induction l with
  | nil => exact fun a ha => ha
  | cons b l ih => exact fun a ha => ih _ (h a b ha)

/-! ## Step lemmas: queue shape, duplicate freedom, bounds, energy -/

/-- A direction step either leaves the queue unchanged, appends the
in-bounds neighbour, or appends the popped cell itself. -/
lemma dirStep_queue_cases (P : Propagator) (pt : Coord)
    (st : List Coord × Cube) (d : Coord) :
    (dirStep P pt st d).1 = st.1 ∨
      ((dirStep P pt st d).1 =
          st.1 ++ [(pt.1 + d.1, pt.2.1 + d.2.1, pt.2.2 + d.2.2)] ∧
        inBounds P.cube_size (pt.1 + d.1, pt.2.1 + d.2.1, pt.2.2 + d.2.2)) ∨
      (dirStep P pt st d).1 = st.1 ++ [pt] := by
  unfold dirStep
  dsimp only
  split
  · rename_i hg
    split
    · right; left; exact ⟨rfl, hg.1⟩
    · split
      · right; right; rfl
      · left; rfl
  · left; rfl

/-- Every append performed by a direction step is guarded by a membership
test, so duplicate freedom of the active queue is preserved. -/
lemma dirStep_queue_nodup (P : Propagator) (pt : Coord)
    (st : List Coord × Cube) (d : Coord) (h : st.1.Nodup) :
    ((dirStep P pt st d).1).Nodup := by
  unfold dirStep
  dsimp only
  split
  · split
    · rename_i hA
      rw [List.nodup_append]
      refine ⟨h, List.nodup_singleton _, ?_⟩
      intro a ha ha'
      rw [List.mem_singleton] at ha'
      exact hA.2 (ha' ▸ ha)
    · split
      · rename_i hA hB
        rw [List.nodup_append]
        refine ⟨h, List.nodup_singleton _, ?_⟩
        intro a ha ha'
        rw [List.mem_singleton] at ha'
        exact hB.2 (ha' ▸ ha)
      · exact h
  · exact h

/-- A direction step only appends in-bounds coordinates (the neighbour is
appended only after the bounds check; the popped cell is assumed
in-bounds). -/
lemma dirStep_queue_bounds (P : Propagator) (pt : Coord)
    (st : List Coord × Cube) (d : Coord) (hpt : inBounds P.cube_size pt)
    (hq : ∀ p ∈ st.1, inBounds P.cube_size p) :
    ∀ p ∈ (dirStep P pt st d).1, inBounds P.cube_size p := by
  rcases dirStep_queue_cases P pt st d with h | ⟨h, hn⟩ | h <;> rw [h]
  · exact hq
  · intro p hp
    rcases List.mem_append.mp hp with h' | h'
    · exact hq p h'
    · rw [List.mem_singleton] at h'
      exact h' ▸ hn
  · intro p hp
    rcases List.mem_append.mp hp with h' | h'
    · exact hq p h'
    · rw [List.mem_singleton] at h'
      exact h' ▸ hpt

/-- The paired updates of a direction step leave the lattice total
unchanged (in both branches the two cells receive opposite amounts). -/
lemma dirStep_gridSum (P : Propagator) (pt : Coord)
    (st : List Coord × Cube) (d : Coord) (hpt : inBounds P.cube_size pt) :
    gridSum P.cube_size (dirStep P pt st d).2 = gridSum P.cube_size st.2 := by
  unfold dirStep
  dsimp only
  split
  · rename_i hg
    split
    · dsimp only
      rw [gridSum_upd_mem _ _ _ hpt, gridSum_upd_mem _ _ _ hg.1]
      ring
    · split
      · dsimp only
        rw [gridSum_upd_mem _ _ _ hpt, gridSum_upd_mem _ _ _ hg.1]
        ring
      · rfl
  · rfl

/-- Queue processing preserves duplicate freedom of the queue. -/
lemma processQueue_nodup (P : Propagator) (sh : ℕ → List Coord) (g : ℕ)
    {q : List Coord} {c : Cube} (h : q.Nodup) :
    ((processQueue P sh g q c).1).Nodup := by
  match q with
  | [] => exact List.nodup_nil
  | pt :: rest =>
    simp only [processQueue]
    exact foldl_preserve (dirStep P pt) (fun st => st.1.Nodup)
      (fun st d hst => dirStep_queue_nodup P pt st d hst)
      (sh g) (rest, c) (List.nodup_cons.mp h).2

/-- Queue processing preserves in-bounds coordinates. -/
lemma processQueue_bounds (P : Propagator) (sh : ℕ → List Coord) (g : ℕ)
    {q : List Coord} {c : Cube} (h : ∀ p ∈ q, inBounds P.cube_size p) :
    ∀ p ∈ (processQueue P sh g q c).1, inBounds P.cube_size p := by
  match q with
  | [] => intro p hp; cases hp
  | pt :: rest =>
    simp only [processQueue]
    have hpt : inBounds P.cube_size pt := h pt (List.mem_cons_self pt rest)
    exact foldl_preserve (dirStep P pt)
      (fun st => ∀ p ∈ st.1, inBounds P.cube_size p)
      (fun st d hst => dirStep_queue_bounds P pt st d hpt hst)
      (sh g) (rest, c) (fun p hp => h p (List.mem_cons_of_mem pt hp))

/-- Queue processing preserves the lattice total. -/
lemma processQueue_gridSum (P : Propagator) (sh : ℕ → List Coord) (g : ℕ)
    {q : List Coord} {c : Cube} (h : ∀ p ∈ q, inBounds P.cube_size p) :
    gridSum P.cube_size (processQueue P sh g q c).2.1 = gridSum P.cube_size c := by
  match q with
  | [] => rfl
  | pt :: rest =>
    simp only [processQueue]
    have hpt : inBounds P.cube_size pt := h pt (List.mem_cons_self pt rest)
    exact foldl_preserve (dirStep P pt)
      (fun st => gridSum P.cube_size st.2 = gridSum P.cube_size c)
      (fun st d hst => by
        show gridSum P.cube_size (dirStep P pt st d).2 = gridSum P.cube_size c
        rw [dirStep_gridSum P pt st d hpt]
        exact hst)
      (sh g) (rest, c) rfl

/-- Batch processing preserves duplicate freedom of every queue. -/
lemma processRev_nodup (P : Propagator) (sh : ℕ → List Coord) :
    ∀ (qs : List (List Coord)) (c : Cube) (g : ℕ),
      (∀ q ∈ qs, q.Nodup) → ∀ q ∈ (processRev P sh qs c g).1, q.Nodup := by
  intro qs
  induction qs with
  | nil =>
    intro c g h q hq
    simp only [processRev] at hq
    cases hq
  | cons q₀ qs ih =>
    intro c g h q hq
    simp only [processRev] at hq
    split at hq
    · exact ih _ _ (fun q' h' => h q' (List.mem_cons_of_mem q₀ h')) q hq
    · rcases List.mem_cons.mp hq with rfl | hmem
      · exact processQueue_nodup P sh g (h q₀ (List.mem_cons_self q₀ qs))
      · exact ih _ _ (fun q' h' => h q' (List.mem_cons_of_mem q₀ h')) q hmem

/-- Batch processing preserves in-bounds coordinates in every queue. -/
lemma processRev_bounds (P : Propagator) (sh : ℕ → List Coord) :
    ∀ (qs : List (List Coord)) (c : Cube) (g : ℕ),
      (∀ q ∈ qs, ∀ p ∈ q, inBounds P.cube_size p) →
      ∀ q ∈ (processRev P sh qs c g).1, ∀ p ∈ q, inBounds P.cube_size p := by
  intro qs
  induction qs with
  | nil =>
    intro c g h q hq
    simp only [processRev] at hq
    cases hq
  | cons q₀ qs ih =>
    intro c g h q hq
    simp only [processRev] at hq
    split at hq
    · exact ih _ _ (fun q' h' => h q' (List.mem_cons_of_mem q₀ h')) q hq
    · rcases List.mem_cons.mp hq with rfl | hmem
      · exact processQueue_bounds P sh g (h q₀ (List.mem_cons_self q₀ qs))
      · exact ih _ _ (fun q' h' => h q' (List.mem_cons_of_mem q₀ h')) q hmem

/-- Batch processing preserves the lattice total. -/
lemma processRev_gridSum (P : Propagator) (sh : ℕ → List Coord) :
    ∀ (qs : List (List Coord)) (c : Cube) (g : ℕ),
      (∀ q ∈ qs, ∀ p ∈ q, inBounds P.cube_size p) →
      gridSum P.cube_size (processRev P sh qs c g).2.1 = gridSum P.cube_size c := by
  intro qs
  induction qs with
  | nil => intro c g _; simp only [processRev]
  | cons q₀ qs ih =>
    intro c g h
    simp only [processRev]
    rw [ih _ _ (fun q' h' => h q' (List.mem_cons_of_mem q₀ h')),
      processQueue_gridSum P sh g (h q₀ (List.mem_cons_self q₀ qs))]

/-- The amount of temperature injected at the origin by the reheat branch
of the seed phase. -/
def reheatAmount (P : Propagator) (s : SimState) : ℚ :=
  if s.prop_index % P.delay = 0 ∧ s.cube P.origin < P.end_temp then
    P.increment
  else 0

/-- The seed phase either appends one fresh queue holding the origin, or
leaves the batch unchanged. -/
lemma seedPhase_queues_cases (P : Propagator) (s : SimState) :
    (seedPhase P s).2 = s.queues ++ [[P.origin]] ∨
      (seedPhase P s).2 = s.queues := by
  unfold seedPhase
  split
  · left; rfl
  · split
    · left; rfl
    · right; rfl

/-- Any queue present after the seed phase was already present or is the
fresh singleton `[origin]`. -/
lemma seedPhase_queues_mem {P : Propagator} {s : SimState} {q : List Coord}
    (hq : q ∈ (seedPhase P s).2) : q ∈ s.queues ∨ q = [P.origin] := by
  rcases seedPhase_queues_cases P s with h | h <;> rw [h] at hq
  · rcases List.mem_append.mp hq with h' | h'
    · left; exact h'
    · right; simpa using h'
  · left; exact hq

/-- The seed phase changes the lattice total by exactly the reheat
amount. -/
lemma seedPhase_gridSum (P : Propagator) (s : SimState)
    (ho : inBounds P.cube_size P.origin) :
    gridSum P.cube_size (seedPhase P s).1 =
      gridSum P.cube_size s.cube + reheatAmount P s := by
  by_cases h1 : s.prop_index % P.delay = 0
  · by_cases h2 : s.cube P.origin < P.end_temp
    · have e1 : (seedPhase P s).1 =
          upd s.cube P.origin (s.cube P.origin + P.increment) := by
        unfold seedPhase
        rw [if_pos h1]
        dsimp only
        rw [if_pos h2]
      have e2 : reheatAmount P s = P.increment := by
        unfold reheatAmount
        rw [if_pos (And.intro h1 h2)]
      rw [e1, e2, gridSum_upd_mem _ _ _ ho]
      ring
    · have e1 : (seedPhase P s).1 = s.cube := by
        unfold seedPhase
        rw [if_pos h1]
        dsimp only
        rw [if_neg h2]
      have e2 : reheatAmount P s = 0 := by
        unfold reheatAmount
        rw [if_neg (by intro hc; exact h2 hc.2)]
      rw [e1, e2]
      ring
  · have e1 : (seedPhase P s).1 = s.cube := by
      unfold seedPhase
      rw [if_neg h1]
      split
      · rfl
      · rfl
    have e2 : reheatAmount P s = 0 := by
      unfold reheatAmount
      rw [if_neg (by intro hc; exact h1 hc.1)]
    rw [e1, e2]
    ring

/-- A completed step changes the lattice total by exactly the reheat
amount: the queue-processing transfers cancel pairwise. -/
lemma completedState_gridSum (P : Propagator) (sh : ℕ → List Coord)
    (s : SimState) (ho : inBounds P.cube_size P.origin)
    (hq : ∀ q ∈ s.queues, ∀ p ∈ q, inBounds P.cube_size p) :
    gridSum P.cube_size (completedState P sh s).cube =
      gridSum P.cube_size s.cube + reheatAmount P s := by
  unfold completedState
  dsimp only
  have hq1 : ∀ q ∈ ((seedPhase P s).2).reverse, ∀ p ∈ q,
      inBounds P.cube_size p := by
    intro q hqr
    rw [List.mem_reverse] at hqr
    rcases seedPhase_queues_mem hqr with h | h
    · exact hq q h
    · subst h
      intro p hp
      rw [List.mem_singleton] at hp
      exact hp ▸ ho
  rw [processRev_gridSum P sh _ _ _ hq1]
  exact seedPhase_gridSum P s ho

/-- C6: over any completed step of any run (origin in bounds, all queued
coordinates in bounds, non-negative increment), the lattice total changes
by exactly the amount injected at the origin by that step's reheat, and in
particular the change is bounded by that amount. -/
theorem claim_C6_energy_conservation (P : Propagator) (sh : ℕ → List Coord)
    (s : SimState) (ho : inBounds P.cube_size P.origin)
    (hq : ∀ q ∈ s.queues, ∀ p ∈ q, inBounds P.cube_size p)
    (hinc : 0 ≤ P.increment) :
    gridSum P.cube_size (completedState P sh s).cube =
      gridSum P.cube_size s.cube + reheatAmount P s ∧
    |gridSum P.cube_size (completedState P sh s).cube -
        gridSum P.cube_size s.cube| ≤ reheatAmount P s := by
  have h := completedState_gridSum P sh s ho hq
  refine ⟨h, ?_⟩
  have hra : 0 ≤ reheatAmount P s := by
    unfold reheatAmount
    split
    · exact hinc
    · exact le_refl 0
  rw [h, show gridSum P.cube_size s.cube + reheatAmount P s -
      gridSum P.cube_size s.cube = reheatAmount P s by ring,
    abs_of_nonneg hra]

/-! ## Reachability and queue invariants -/

/-- A step is either the convergence break or a completed pass. -/
lemma runStep_cases (P : Propagator) (sh : ℕ → List Coord) (s : SimState) :
    runStep P sh s = (convergedState P s, true) ∨
      runStep P sh s = (completedState P sh s, false) := by
  unfold runStep
  split
  · left; rfl
  · right; rfl

/-- One step preserves duplicate freedom of every queue. -/
lemma runStep_queues_nodup (P : Propagator) (sh : ℕ → List Coord)
    (s : SimState) (h : ∀ q ∈ s.queues, q.Nodup) :
    ∀ q ∈ (runStep P sh s).1.queues, q.Nodup := by
  rcases runStep_cases P sh s with hr | hr <;> rw [hr]
  · intro q hq
    unfold convergedState at hq
    dsimp only at hq
    obtain ⟨q₀, _, rfl⟩ := List.mem_map.mp hq
    exact List.nodup_nil
  · intro q hq
    unfold completedState at hq
    dsimp only at hq
    rw [List.mem_reverse] at hq
    refine processRev_nodup P sh _ _ _ ?_ q hq
    intro q' h'
    rw [List.mem_reverse] at h'
    rcases seedPhase_queues_mem h' with h'' | h''
    · exact h q' h''
    · subst h''
      exact List.nodup_singleton _

/-- One step preserves in-bounds coordinates in every queue, provided the
origin is in bounds. -/
lemma runStep_queues_bounds (P : Propagator) (sh : ℕ → List Coord)
    (s : SimState) (ho : inBounds P.cube_size P.origin)
    (h : ∀ q ∈ s.queues, ∀ p ∈ q, inBounds P.cube_size p) :
    ∀ q ∈ (runStep P sh s).1.queues, ∀ p ∈ q, inBounds P.cube_size p := by
  rcases runStep_cases P sh s with hr | hr <;> rw [hr]
  · intro q hq
    unfold convergedState at hq
    dsimp only at hq
    obtain ⟨q₀, _, rfl⟩ := List.mem_map.mp hq
    intro p hp
    cases hp
  · intro q hq
    unfold completedState at hq
    dsimp only at hq
    rw [List.mem_reverse] at hq
    refine processRev_bounds P sh _ _ _ ?_ q hq
    intro q' h'
    rw [List.mem_reverse] at h'
    rcases seedPhase_queues_mem h' with h'' | h''
    · exact h q' h''
    · subst h''
      intro p hp
      rw [List.mem_singleton] at hp
      exact hp ▸ ho

/-- The states occurring at the top of the `while` loop during a run:
the initial state, and the successor of any reachable state at which the
loop guard held. -/
inductive Reaches (P : Propagator) (sh : ℕ → List Coord) : SimState → Prop
  | init : Reaches P sh (initState P)
  | step (s : SimState) : Reaches P sh s → s.queues ≠ [] →
      s.iterations < P.max_iterations → Reaches P sh (runStep P sh s).1

/-- C7: in every reachable state of every run, every frontier queue is
free of duplicates, and at the finest grain every single direction step
preserves duplicate freedom of the active queue (each append is guarded
by a membership test). -/
theorem claim_C7_frontier_no_duplicates (P : Propagator)
    (sh : ℕ → List Coord) :
    (∀ s, Reaches P sh s → ∀ q ∈ s.queues, q.Nodup) ∧
      (∀ (pt : Coord) (st : List Coord × Cube) (d : Coord), st.1.Nodup →
        ((dirStep P pt st d).1).Nodup) := by
  constructor
  · intro s hs
    induction hs with
    | init =>
      intro q hq
      unfold initState at hq
      dsimp only at hq
      rw [List.mem_singleton] at hq
      subst hq
      exact List.nodup_singleton _
    | step s' hs' hne hlt ih => exact runStep_queues_nodup P sh s' ih
  · exact fun pt st d h => dirStep_queue_nodup P pt st d h

/-- C10: when the origin is in bounds, every coordinate held in any
frontier queue of any reachable state has every component in
`[0, cube_size)`; and at the finest grain a direction step only ever adds
in-bounds coordinates, so every lattice access of the run loop is made at
an in-bounds coordinate. -/
theorem claim_C10_queue_coords_in_bounds (P : Propagator)
    (sh : ℕ → List Coord) (ho : inBounds P.cube_size P.origin) :
    (∀ s, Reaches P sh s → ∀ q ∈ s.queues, ∀ p ∈ q, inBounds P.cube_size p) ∧
      (∀ (pt : Coord) (st : List Coord × Cube) (d : Coord),
        inBounds P.cube_size pt → (∀ p ∈ st.1, inBounds P.cube_size p) →
        ∀ p ∈ (dirStep P pt st d).1, inBounds P.cube_size p) := by
  constructor
  · intro s hs
    induction hs with
    | init =>
      intro q hq
      unfold initState at hq
      dsimp only at hq
      rw [List.mem_singleton] at hq
      subst hq
      intro p hp
      rw [List.mem_singleton] at hp
      exact hp ▸ ho
    | step s' hs' hne hlt ih => exact runStep_queues_bounds P sh s' ho ih
  · exact fun pt st d hpt hq => dirStep_queue_bounds P pt st d hpt hq

/-! ## Termination-path lemmas and snapshot bookkeeping -/

lemma convergedState_snaps (P : Propagator) (s : SimState) :
    (convergedState P s).snaps = s.snaps := rfl

lemma completedState_snaps (P : Propagator) (sh : ℕ → List Coord)
    (s : SimState) :
    (completedState P sh s).snaps =
      s.snaps ++ [snapshotOf P.cube_size (completedState P sh s).cube] := rfl

/-- When the loop guard holds and the convergence check fires on the
post-seed lattice, the loop ends at once with the converged state. -/
lemma loop_converged (P : Propagator) (sh : ℕ → List Coord) (s : SimState)
    (fuel : ℕ) (h1 : s.queues ≠ []) (h2 : s.iterations < P.max_iterations)
    (h3 : allClose P (seedPhase P s).1) :
    loop P sh (fuel + 1) s = some (convergedState P s, .converged) := by
  have hr : runStep P sh s = (convergedState P s, true) := by
    unfold runStep
    rw [if_pos h3]
  unfold loop
  rw [if_neg h1, if_neg (by omega), hr, if_pos rfl]

/-- C5: whenever a step begins (non-empty batch, iteration budget left)
and, after the reheat/seed decision, every lattice cell is within the
absolute tolerance of `end_temp`, the loop terminates immediately in the
converged state: the snapshot list is exactly the one recorded so far
(no snapshot is appended for this step) and every frontier is cleared. -/
theorem claim_C5_convergence_break (P : Propagator) (sh : ℕ → List Coord)
    (s : SimState) (fuel : ℕ) (h1 : s.queues ≠ [])
    (h2 : s.iterations < P.max_iterations)
    (h3 : allClose P (seedPhase P s).1) :
    loop P sh (fuel + 1) s = some (convergedState P s, .converged) ∧
      (convergedState P s).snaps = s.snaps ∧
      ∀ q ∈ (convergedState P s).queues, q = [] := by
  refine ⟨loop_converged P sh s fuel h1 h2 h3, rfl, ?_⟩
  intro q hq
  unfold convergedState at hq
  dsimp only at hq
  obtain ⟨q₀, _, rfl⟩ := List.mem_map.mp hq
  rfl

/-- Shape predicate for one snapshot: a `(n, n, n)` nested list. -/
def Shaped (n : ℕ) (snap : Snap) : Prop :=
  snap.length = n ∧ ∀ plane ∈ snap, plane.length = n ∧
    ∀ row ∈ plane, row.length = n

/-- A serialised lattice always has shape `(n, n, n)`. -/
lemma snapshotOf_shaped (n : ℕ) (c : Cube) : Shaped n (snapshotOf n c) := by
  unfold Shaped snapshotOf
  refine ⟨by simp, ?_⟩
  intro plane hp
  obtain ⟨x, _, rfl⟩ := List.mem_map.mp hp
  refine ⟨by simp, ?_⟩
  intro row hr
  obtain ⟨y, _, rfl⟩ := List.mem_map.mp hr
  simp

/-- Loop invariant: the snapshot count is bounded by the iteration count,
which never exceeds the cap, and all snapshots are well-shaped. -/
lemma loop_snaps_inv (P : Propagator) (sh : ℕ → List Coord) :
    ∀ (fuel : ℕ) (s fs : SimState) (ts : TermState),
      loop P sh fuel s = some (fs, ts) →
      s.snaps.length ≤ s.iterations → s.iterations ≤ P.max_iterations →
      (∀ snap ∈ s.snaps, Shaped P.cube_size snap) →
      fs.snaps.length ≤ P.max_iterations ∧
        ∀ snap ∈ fs.snaps, Shaped P.cube_size snap := by
  intro fuel
  induction fuel with
  | zero =>
    intro s fs ts h hlen hiter hshape
    unfold loop at h
    split at h
    · simp only [Option.some.injEq, Prod.mk.injEq] at h
      obtain ⟨rfl, -⟩ := h
      exact ⟨le_trans hlen hiter, hshape⟩
    · split at h
      · simp only [Option.some.injEq, Prod.mk.injEq] at h
        obtain ⟨rfl, -⟩ := h
        exact ⟨le_trans hlen hiter, hshape⟩
      · cases h
  | succ n ih =>
    intro s fs ts h hlen hiter hshape
    unfold loop at h
    split at h
    · simp only [Option.some.injEq, Prod.mk.injEq] at h
      obtain ⟨rfl, -⟩ := h
      exact ⟨le_trans hlen hiter, hshape⟩
    · rename_i hne
      split at h
      · simp only [Option.some.injEq, Prod.mk.injEq] at h
        obtain ⟨rfl, -⟩ := h
        exact ⟨le_trans hlen hiter, hshape⟩
      · rename_i hcap
        split at h
        · rename_i hbrk
          simp only [Option.some.injEq, Prod.mk.injEq] at h
          obtain ⟨rfl, -⟩ := h
          rcases runStep_cases P sh s with hr | hr
          · rw [hr]
            dsimp only
            rw [convergedState_snaps]
            exact ⟨le_trans hlen (by omega), hshape⟩
          · rw [hr] at hbrk
            cases hbrk
        · rcases runStep_cases P sh s with hr | hr
          · rename_i hbrk
            rw [hr] at hbrk
            exact absurd rfl hbrk
          · refine ih _ fs ts h ?_ ?_ ?_
            · rw [hr]
              dsimp only
              rw [completedState_snaps]
              have : (completedState P sh s).iterations = s.iterations + 1 := rfl
              rw [this]
              simp only [List.length_append, List.length_singleton]
              omega
            · rw [hr]
              have : (completedState P sh s).iterations = s.iterations + 1 := rfl
              rw [this]
              omega
            · rw [hr]
              dsimp only
              rw [completedState_snaps]
              intro snap hsnap
              rcases List.mem_append.mp hsnap with h' | h'
              · exact hshape snap h'
              · rw [List.mem_singleton] at h'
                exact h' ▸ snapshotOf_shaped P.cube_size _

/-- C8: every run returns at most `max_iterations` snapshots, and every
returned snapshot is a nested list of shape
`(cube_size, cube_size, cube_size)`. -/
theorem claim_C8_snapshot_count_and_shape (P : Propagator)
    (sh : ℕ → List Coord) (fs : SimState) (ts : TermState)
    (h : propagateRun P sh = some (fs, ts)) :
    fs.snaps.length ≤ P.max_iterations ∧
      ∀ snap ∈ fs.snaps, Shaped P.cube_size snap :=
  loop_snaps_inv P sh P.max_iterations (initState P) fs ts h
    (by simp [initState]) (by simp [initState]) (by simp [initState])

/-! ## Concrete configurations -/

/-- The repository's default conductor
(`k=237, c_p=900, rho=2700, min_delta=1e-5, conduction_time=1, delta_x=1,
a=1`). -/
def hcStd : HeatConductor := ⟨237, 900, 2700, 1/100000, 1, 1, 1⟩

/-- A fixed randomness oracle: every shuffle returns the direction list in
its original order (a valid permutation). -/
def shId : ℕ → List Coord := fun _ => directions

/-- A single-cell run whose convergence check fires at the top of the very
first step, before any snapshot has been recorded: `size=1`, origin at the
single cell, `start_temp=0`, `end_temp=1`, `increment=1`, `delay=1`,
`max_iterations=10`, `delta_tolerance=1/10`. -/
def convRun : Propagator := ⟨1, (0, 0, 0), 0, 1, 1, 1, 10, 1/10, hcStd⟩

/-- A single-cell run that completes one step (recording one snapshot)
and then stalls: `increment=1/4` keeps the cell away from `end_temp` and
the tight tolerance `1/100` prevents convergence. -/
def stallRun : Propagator := ⟨1, (0, 0, 0), 0, 1, 1/4, 1, 3, 1/100, hcStd⟩

/-- On `convRun`, the convergence check holds on the post-seed lattice of
the initial state: the only cell carries `start_temp + increment = 1`,
within `1/10` of `end_temp = 1`. -/
lemma convRun_allClose :
    allClose convRun (seedPhase convRun (initState convRun)).1 := by
  have hseed : (seedPhase convRun (initState convRun)).1 =
      (initState convRun).cube := by
    unfold seedPhase
    rw [if_pos (by rfl)]
    dsimp only
    rw [if_neg (by simp [initState, convRun, upd])]
  rw [hseed]
  intro p hp
  rw [show gridCoords convRun.cube_size = [((0 : ℤ), (0 : ℤ), (0 : ℤ))]
      from rfl, List.mem_singleton] at hp
  subst hp
  simp [initState, convRun, upd]

/-- C1 (code bug): on a well-formed run whose convergence check fires
before any snapshot is appended, `propagate` does not return the empty
snapshot list — the final debug `print(cube_states[-1])` raises
`IndexError`. -/
theorem claim_C1_index_error_on_empty_snapshots :
    propagate convRun shId = Except.error "IndexError" := by
  have h : propagateRun convRun shId =
      some (convergedState convRun (initState convRun), .converged) := by
    unfold propagateRun
    rw [show convRun.max_iterations = 9 + 1 from rfl]
    exact loop_converged convRun shId (initState convRun) 9
      (by simp [initState]) (by decide) convRun_allClose
  unfold propagate
  rw [h]
  dsimp only
  rw [if_pos (show (convergedState convRun (initState convRun)).snaps =
    ([] : List Snap) from rfl)]

/-- C2 (corrected): constructing the engine with a non-positive
`cube_size`, an out-of-range origin, and non-positive `delay` and
`max_iterations` does not fail: `__init__` performs no validation and
returns the constructed object. -/
theorem claim_C2_invalid_params_accepted :
    Propagator.init 0 ((0 : ℤ), (0 : ℤ), (0 : ℤ)) 0 1 1 0 0 (1/10) hcStd =
      Except.ok ⟨0, ((0 : ℤ), (0 : ℤ), (0 : ℤ)), 0, 1, 1, 0, 0, 1/10, hcStd⟩ :=
  rfl

/-- C2 (amended): `Propagator.__init__` accepts every parameter set
without raising; it only stores the parameters. -/
theorem claim_C2_init_never_fails (cube_size : ℕ) (origin : Coord)
    (start_temp end_temp increment : ℚ) (delay max_iterations : ℕ)
    (delta_tolerance : ℚ) (heat_conductor : HeatConductor) :
    ∃ p, Propagator.init cube_size origin start_temp end_temp increment
        delay max_iterations delta_tolerance heat_conductor = Except.ok p :=
  ⟨_, rfl⟩

/-! ## Witnesses for the loop claims -/

/-- Witness for C5: `convRun` from its initial state. -/
theorem claim_C5_convergence_break_witness :
    loop convRun shId 10 (initState convRun) =
      some (convergedState convRun (initState convRun),
        TermState.converged) :=
  (claim_C5_convergence_break convRun shId (initState convRun) 9
    (by simp [initState]) (by decide) convRun_allClose).1

/-- Witness for C6: one completed step of `stallRun` from its initial
state. -/
theorem claim_C6_energy_conservation_witness :
    gridSum stallRun.cube_size
        (completedState stallRun shId (initState stallRun)).cube =
      gridSum stallRun.cube_size (initState stallRun).cube +
        reheatAmount stallRun (initState stallRun) ∧
    |gridSum stallRun.cube_size
        (completedState stallRun shId (initState stallRun)).cube -
      gridSum stallRun.cube_size (initState stallRun).cube| ≤
        reheatAmount stallRun (initState stallRun) :=
  claim_C6_energy_conservation stallRun shId (initState stallRun)
    (by decide)
    (by
      intro q hq
      simp only [initState, List.mem_singleton] at hq
      subst hq
      intro p hp
      rw [List.mem_singleton] at hp
      subst hp
      decide)
    (by simp [stallRun])

/-- Witness for C7: the initial queue of `convRun` is duplicate-free. -/
theorem claim_C7_frontier_no_duplicates_witness :
    ([((0 : ℤ), (0 : ℤ), (0 : ℤ))] : List Coord).Nodup :=
  (claim_C7_frontier_no_duplicates convRun shId).1 (initState convRun)
    Reaches.init [((0 : ℤ), (0 : ℤ), (0 : ℤ))] (by simp [initState, convRun])

/-- Witness for C8: the converged run on `convRun` returns at most
`max_iterations` snapshots. -/
theorem claim_C8_snapshot_count_and_shape_witness :
    (convergedState convRun (initState convRun)).snaps.length ≤
      convRun.max_iterations := by
  have h : propagateRun convRun shId =
      some (convergedState convRun (initState convRun), .converged) := by
    unfold propagateRun
    rw [show convRun.max_iterations = 9 + 1 from rfl]
    exact loop_converged convRun shId (initState convRun) 9
      (by simp [initState]) (by decide) convRun_allClose
  exact (claim_C8_snapshot_count_and_shape convRun shId _ _ h).1

/-- Witness for C10: the coordinate held in the initial queue of `convRun`
is in bounds. -/
theorem claim_C10_queue_coords_in_bounds_witness :
    inBounds convRun.cube_size ((0 : ℤ), (0 : ℤ), (0 : ℤ)) :=
  (claim_C10_queue_coords_in_bounds convRun shId (by decide)).1
    (initState convRun) Reaches.init [((0 : ℤ), (0 : ℤ), (0 : ℤ))]
    (by simp [initState, convRun]) ((0 : ℤ), (0 : ℤ), (0 : ℤ))
    (by simp)

/-! ## The delayed-reheat scenario (claim C9)

`delay = 1000` with `max_iterations = 10` and the standard configuration:
`size = 2`, origin `(0,0,0)`, `start_temp = 0`, `end_temp = 1`,
`increment = 1`, `delta_tolerance = 1/20`, default conductor.  The claim is
that every run (that is, every admissible shuffle oracle) ends `EXHAUSTED`
with exactly 10 snapshots.  The proof tracks a quantitative invariant: the
lattice is non-negative, its total stays exactly 1, and the origin keeps
almost all of it, so the fresh queue seeded each step always performs at
least one append and the batch never empties. -/

def runP9 : Propagator := ⟨2, (0, 0, 0), 0, 1, 1, 1000, 10, 1/20, hcStd⟩

/-- The origin of the scenario. -/
def origin9 : Coord := ((0 : ℤ), (0 : ℤ), (0 : ℤ))

/-- The conduction coefficient of the default conductor:
`k * conduction_time / (rho * delta_x^2 * c_p) = 237/2430000 = 79/810000`. -/
def coefStd : ℚ := 79 / 810000

lemma coefStd_pos : 0 < coefStd := by norm_num [coefStd]

lemma coefStd_le_one : coefStd ≤ 1 := by norm_num [coefStd]

/-- Closed form of the default conductor's unclamped delta. -/
lemma hcStd_raw (T₁ T₂ : ℚ) :
    rawDelta hcStd T₁ T₂ = -(coefStd * (T₁ - T₂)) := by
  unfold rawDelta hcStd coefStd
  norm_num
  ring

/-- The default conductor either clamps to zero (small delta) or returns
the exact linear delta. -/
lemma hcStd_calc_cases (T₁ T₂ : ℚ) :
    (hcStd.calculate_temperature_change T₁ T₂ = 0 ∧
        |coefStd * (T₁ - T₂)| < 1 / 100000) ∨
      (hcStd.calculate_temperature_change T₁ T₂ = -(coefStd * (T₁ - T₂)) ∧
        ¬|coefStd * (T₁ - T₂)| < 1 / 100000) := by
  rw [calc_eq_clamp, hcStd_raw, abs_neg,
    show hcStd.min_delta = 1 / 100000 from rfl]
  split
  · rename_i h
    exact Or.inl ⟨rfl, h⟩
  · rename_i h
    exact Or.inr ⟨rfl, h⟩

/-- The quantitative lattice invariant of the scenario: non-negative
cells, total exactly 1, and at least `b` at the origin. -/
def CInv (b : ℚ) (c : Cube) : Prop :=
  (∀ p ∈ gridCoords 2, 0 ≤ c p) ∧ gridSum 2 c = 1 ∧ b ≤ c origin9

lemma CInv_mono {b b' : ℚ} {c : Cube} (h : b' ≤ b) (hc : CInv b c) :
    CInv b' c :=
  ⟨hc.1, hc.2.1, le_trans h hc.2.2⟩

lemma origin9_mem : origin9 ∈ gridCoords 2 := by decide

/-- Under the invariant, the origin temperature is at most 1 and every
other cell is at most `1 - c origin9`. -/
lemma CInv_cell_bounds {b : ℚ} {c : Cube} (h : CInv b c) :
    c origin9 ≤ 1 ∧
      ∀ p ∈ gridCoords 2, p ≠ origin9 → c p ≤ 1 - c origin9 := by
  obtain ⟨hpos, hsum, hO⟩ := h
  constructor
  · have := cell_le_gridSum hpos origin9_mem
    rw [hsum] at this
    exact this
  · intro p hp hne
    have := two_cells_le_gridSum hpos hp origin9_mem hne
    rw [hsum] at this
    linarith

/-- One direction step of the scenario preserves the invariant, costing
at most one conduction coefficient of origin temperature: transfers keep
all cells non-negative and the total fixed; the origin never receives
(it is strictly hotter than every other cell), and when it gives it loses
at most `coefStd`. -/
lemma dirStep_CInv (b : ℚ) (hb : 1 / 2 < b - coefStd) (pt : Coord)
    (hpt : inBounds 2 pt) (q : List Coord) (c : Cube) (d : Coord)
    (h : CInv b c) : CInv (b - coefStd) (dirStep runP9 pt (q, c) d).2 := by
  obtain ⟨hpos, hsum, hO⟩ := h
  have hO1 : c origin9 ≤ 1 := (CInv_cell_bounds ⟨hpos, hsum, hO⟩).1
  have hother := (CInv_cell_bounds ⟨hpos, hsum, hO⟩).2
  have hcoef := coefStd_pos
  have hcoef1 := coefStd_le_one
  unfold dirStep
  dsimp only
  split
  · rename_i hg
    have hn2 : inBounds 2 (pt.1 + d.1, pt.2.1 + d.2.1, pt.2.2 + d.2.2) := hg.1
    have hnmem : (pt.1 + d.1, pt.2.1 + d.2.1, pt.2.2 + d.2.2) ∈ gridCoords 2 :=
      mem_gridCoords.mpr hn2
    have hptmem : pt ∈ gridCoords 2 := mem_gridCoords.mpr hpt
    have hptn : pt ≠ (pt.1 + d.1, pt.2.1 + d.2.1, pt.2.2 + d.2.2) := by
      intro he
      rw [← he] at hg
      exact lt_irrefl _ hg.2
    have hnpos : 0 ≤ c (pt.1 + d.1, pt.2.1 + d.2.1, pt.2.2 + d.2.2) :=
      hpos _ hnmem
    have hptpos : 0 ≤ c pt := hpos pt hptmem
    split
    · -- first branch: heat moves from `pt` to the neighbour
      rename_i hA
      have hdiff : runP9.heat_conductor.calculate_temperature_change (c pt)
          (c (pt.1 + d.1, pt.2.1 + d.2.1, pt.2.2 + d.2.2)) =
          -(coefStd * (c pt - c (pt.1 + d.1, pt.2.1 + d.2.1, pt.2.2 + d.2.2))) := by
        rcases hcStd_calc_cases (c pt)
            (c (pt.1 + d.1, pt.2.1 + d.2.1, pt.2.2 + d.2.2)) with ⟨h0, -⟩ | ⟨hr, -⟩
        · exfalso
          have := hA.1
          rw [show runP9.heat_conductor = hcStd from rfl, h0] at this
          exact lt_irrefl 0 this
        · exact hr
      dsimp only
      rw [hdiff]
      have e1 : upd c (pt.1 + d.1, pt.2.1 + d.2.1, pt.2.2 + d.2.2)
          (c (pt.1 + d.1, pt.2.1 + d.2.1, pt.2.2 + d.2.2) -
            -(coefStd * (c pt - c (pt.1 + d.1, pt.2.1 + d.2.1, pt.2.2 + d.2.2)))) pt
          = c pt := upd_ne _ _ _ hptn
      have hmo : coefStd * (c pt - c (pt.1 + d.1, pt.2.1 + d.2.1, pt.2.2 + d.2.2)) ≤
          c pt - c (pt.1 + d.1, pt.2.1 + d.2.1, pt.2.2 + d.2.2) :=
        mul_le_of_le_one_left (by linarith [hg.2]) hcoef1
      have hmop : 0 ≤ coefStd * (c pt - c (pt.1 + d.1, pt.2.1 + d.2.1, pt.2.2 + d.2.2)) :=
        mul_nonneg hcoef.le (by linarith [hg.2])
      refine ⟨?_, ?_, ?_⟩
      · intro p hp
        by_cases hp1 : p = pt
        · subst hp1
          rw [upd_same, e1]
          linarith
        · rw [upd_ne _ _ _ hp1]
          by_cases hp2 : p = (pt.1 + d.1, pt.2.1 + d.2.1, pt.2.2 + d.2.2)
          · subst hp2
            rw [upd_same]
            linarith
          · rw [upd_ne _ _ _ hp2]
            exact hpos p hp
      · rw [gridSum_upd_mem _ _ _ hpt, gridSum_upd_mem _ _ _ hn2, hsum, e1]
        ring
      · by_cases hopt : pt = origin9
        · subst hopt
          rw [upd_same, e1]
          have hon : c (origin9.1 + d.1, origin9.2.1 + d.2.1,
              origin9.2.2 + d.2.2) ≤ 1 := by
            by_cases hne : (origin9.1 + d.1, origin9.2.1 + d.2.1,
                origin9.2.2 + d.2.2) = origin9
            · rw [hne]; exact hO1
            · have := hother _ hnmem hne
              linarith
          have hcap : coefStd * (c origin9 - c (origin9.1 + d.1,
              origin9.2.1 + d.2.1, origin9.2.2 + d.2.2)) ≤ coefStd :=
            mul_le_of_le_one_right hcoef.le (by linarith)
          linarith
        · by_cases hon : (pt.1 + d.1, pt.2.1 + d.2.1, pt.2.2 + d.2.2) = origin9
          · exfalso
            have hptle : c pt ≤ 1 - c origin9 := hother pt hptmem hopt
            rw [hon] at hg
            have hgt := hg.2
            linarith
          · rw [upd_ne _ _ _ (fun he : origin9 = pt => hopt he.symm),
              upd_ne _ _ _ (fun he : origin9 = _ => hon he.symm)]
            linarith
    · split
      · -- second branch: clamped-to-zero delta, `pt` is re-enqueued
        rename_i hA hB
        have hdiff0 : runP9.heat_conductor.calculate_temperature_change (c pt)
            (c (pt.1 + d.1, pt.2.1 + d.2.1, pt.2.2 + d.2.2)) = 0 := by
          rcases hcStd_calc_cases (c pt)
              (c (pt.1 + d.1, pt.2.1 + d.2.1, pt.2.2 + d.2.2)) with ⟨h0, -⟩ | ⟨hr, -⟩
          · exact h0
          · exfalso
            have hBpos := hB.1
            rw [show runP9.heat_conductor = hcStd from rfl, hr] at hBpos
            have := mul_pos coefStd_pos (sub_pos.mpr hg.2)
            linarith
        dsimp only
        rw [hdiff0]
        have hval : ∀ p,
            upd (upd c (pt.1 + d.1, pt.2.1 + d.2.1, pt.2.2 + d.2.2)
                (c (pt.1 + d.1, pt.2.1 + d.2.1, pt.2.2 + d.2.2) + 0)) pt
              (upd c (pt.1 + d.1, pt.2.1 + d.2.1, pt.2.2 + d.2.2)
                (c (pt.1 + d.1, pt.2.1 + d.2.1, pt.2.2 + d.2.2) + 0) pt - 0) p =
            c p := by
          intro p
          by_cases hp1 : p = pt
          · subst hp1
            rw [upd_same, upd_ne _ _ _ hptn]
            ring
          · rw [upd_ne _ _ _ hp1]
            by_cases hp2 : p = (pt.1 + d.1, pt.2.1 + d.2.1, pt.2.2 + d.2.2)
            · subst hp2
              rw [upd_same]
              ring
            · rw [upd_ne _ _ _ hp2]
        refine ⟨?_, ?_, ?_⟩
        · intro p hp
          rw [hval p]
          exact hpos p hp
        · show ((gridCoords 2).map _).sum = 1
          rw [List.map_congr_left fun p _ => hval p]
          exact hsum
        · rw [hval origin9]
          linarith
      · exact ⟨hpos, hsum, by linarith⟩
  · exact ⟨hpos, hsum, by linarith⟩

/-- Folding one shuffle over a popped cell consumes at most one
coefficient per direction from the origin's budget. -/
lemma fold_CInv (pt : Coord) (hpt : inBounds 2 pt) :
    ∀ (ds : List Coord) (b : ℚ), 1 / 2 < b - ds.length * coefStd →
      ∀ st : List Coord × Cube, CInv b st.2 →
      CInv (b - ds.length * coefStd) ((ds.foldl (dirStep runP9 pt) st).2) := by
  intro ds
  induction ds with
  | nil =>
    intro b hb st h
    simpa using h
  | cons d ds ih =>
    intro b hb st h
    have hlen : (((d :: ds).length : ℕ) : ℚ) * coefStd =
        coefStd + (ds.length : ℚ) * coefStd := by
      push_cast [List.length_cons]
      ring
    have hds0 : 0 ≤ (ds.length : ℚ) * coefStd :=
      mul_nonneg (Nat.cast_nonneg _) coefStd_pos.le
    rw [hlen] at hb
    have hb1 : 1 / 2 < b - coefStd := by linarith
    have h1 : CInv (b - coefStd) ((dirStep runP9 pt st d).2) :=
      dirStep_CInv b hb1 pt hpt st.1 st.2 d h
    have h2 := ih (b - coefStd) (by linarith) (dirStep runP9 pt st d) h1
    rw [List.foldl_cons]
    refine CInv_mono ?_ h2
    rw [hlen]
    linarith

/-- Processing one queue consumes at most six coefficients (the shuffle
has six directions). -/
lemma processQueue_CInv (sh : ℕ → List Coord) (g : ℕ) (q : List Coord)
    (c : Cube) (b : ℚ) (hq : ∀ p ∈ q, inBounds 2 p)
    (hlen : (sh g).length = 6) (hb : 1 / 2 < b - 6 * coefStd)
    (h : CInv b c) :
    CInv (b - 6 * coefStd) (processQueue runP9 sh g q c).2.1 := by
  match q with
  | [] =>
    exact CInv_mono
      (by linarith [mul_nonneg (by norm_num : (0:ℚ) ≤ 6) coefStd_pos.le]) h
  | pt :: rest =>
    simp only [processQueue]
    have hfold := fold_CInv pt (hq pt (List.mem_cons_self pt rest)) (sh g) b
      (by rw [hlen]; push_cast; exact hb) (rest, c) h
    refine CInv_mono ?_ hfold
    rw [hlen]
    push_cast
    linarith

/-- Processing the whole batch consumes at most six coefficients per
queue. -/
lemma processRev_CInv (sh : ℕ → List Coord) (hsh : ∀ g, (sh g).length = 6) :
    ∀ (qs : List (List Coord)) (c : Cube) (g : ℕ) (b : ℚ),
      (∀ q ∈ qs, ∀ p ∈ q, inBounds 2 p) →
      1 / 2 < b - 6 * qs.length * coefStd →
      CInv b c →
      CInv (b - 6 * qs.length * coefStd) (processRev runP9 sh qs c g).2.1 := by
  intro qs
  induction qs with
  | nil =>
    intro c g b hq hb h
    simp only [processRev]
    refine CInv_mono ?_ h
    simp only [List.length_nil, Nat.cast_zero]
    linarith
  | cons q₀ qs ih =>
    intro c g b hq hb h
    simp only [processRev]
    have hq₀ := hq q₀ (List.mem_cons_self q₀ qs)
    have hqs : ∀ q ∈ qs, ∀ p ∈ q, inBounds 2 p :=
      fun q hq' => hq q (List.mem_cons_of_mem q₀ hq')
    have hexp : 6 * (((q₀ :: qs).length : ℕ) : ℚ) * coefStd =
        6 * coefStd + 6 * (qs.length : ℚ) * coefStd := by
      push_cast [List.length_cons]
      ring
    rw [hexp] at hb
    have hqs0 : 0 ≤ 6 * (qs.length : ℚ) * coefStd := by
      have := coefStd_pos
      positivity
    have h1 : CInv (b - 6 * coefStd) (processQueue runP9 sh g q₀ c).2.1 :=
      processQueue_CInv sh g q₀ c b hq₀ (hsh g) (by linarith) h
    have h2 := ih (processQueue runP9 sh g q₀ c).2.1
      (processQueue runP9 sh g q₀ c).2.2 (b - 6 * coefStd) hqs
      (by linarith) h1
    refine CInv_mono ?_ h2
    rw [hexp]
    linarith

/-- Batch processing never increases the number of queues. -/
lemma processRev_length_le (P : Propagator) (sh : ℕ → List Coord) :
    ∀ (qs : List (List Coord)) (c : Cube) (g : ℕ),
      (processRev P sh qs c g).1.length ≤ qs.length := by
  intro qs
  induction qs with
  | nil => intro c g; simp [processRev]
  | cons q₀ qs ih =>
    intro c g
    simp only [processRev, List.length_cons]
    split
    · exact le_trans (ih _ _) (Nat.le_succ _)
    · rw [List.length_cons]
      exact Nat.succ_le_succ (ih _ _)

/-- A direction step is either a perfect no-op or appends exactly one
coordinate to the active queue. -/
lemma dirStep_cases_full (P : Propagator) (pt : Coord)
    (st : List Coord × Cube) (d : Coord) :
    dirStep P pt st d = st ∨
      ∃ x, (dirStep P pt st d).1 = st.1 ++ [x] := by
  unfold dirStep
  dsimp only
  split
  · split
    · right; exact ⟨_, rfl⟩
    · split
      · right; exact ⟨_, rfl⟩
      · left; rfl
  · left; rfl

/-- A direction step never empties the active queue. -/
lemma dirStep_queue_ne_nil (P : Propagator) (pt : Coord)
    (st : List Coord × Cube) (d : Coord) (h : st.1 ≠ []) :
    (dirStep P pt st d).1 ≠ [] := by
  rcases dirStep_queue_cases P pt st d with hc | ⟨hc, -⟩ | hc <;> rw [hc]
  · exact h
  · simp
  · simp

/-- Folding the directions from an emptied queue either produces a
non-empty queue, or every single direction was a perfect no-op. -/
lemma fold_from_nil (P : Propagator) (pt : Coord) (c₀ : Cube) :
    ∀ ds : List Coord,
      (ds.foldl (dirStep P pt) ([], c₀)).1 ≠ [] ∨
        (ds.foldl (dirStep P pt) ([], c₀) = ([], c₀) ∧
          ∀ d ∈ ds, dirStep P pt ([], c₀) d = ([], c₀)) := by
  intro ds
  induction ds with
  | nil =>
    right
    exact ⟨rfl, fun d hd => absurd hd (List.not_mem_nil d)⟩
  | cons d ds ih =>
    rw [List.foldl_cons]
    rcases dirStep_cases_full P pt ([], c₀) d with hd | ⟨x, hx⟩
    · rw [hd]
      rcases ih with h | ⟨h1, h2⟩
      · left; exact h
      · right
        refine ⟨h1, ?_⟩
        intro d' hd'
        rcases List.mem_cons.mp hd' with rfl | hmem
        · exact hd
        · exact h2 d' hmem
    · left
      have hne : (dirStep P pt ([], c₀) d).1 ≠ [] := by
        rw [hx]; simp
      exact foldl_preserve (dirStep P pt) (fun st => st.1 ≠ [])
        (fun st d' hst => dirStep_queue_ne_nil P pt st d' hst) ds _ hne

/-- Under the invariant, processing the direction `(1,0,0)` from the
just-popped origin is not a no-op: the guard passes (the origin is
strictly hotter than its in-bounds neighbour) and, the queue being empty,
one of the two branches necessarily appends. -/
lemma dirStep_origin_appends (c : Cube) (b : ℚ) (hb2 : 1 / 2 < b)
    (h : CInv b c) :
    (dirStep runP9 origin9 ([], c) ((1 : ℤ), (0 : ℤ), (0 : ℤ))).1 ≠ [] := by
  obtain ⟨hpos, hsum, hO⟩ := h
  have hother := (CInv_cell_bounds ⟨hpos, hsum, hO⟩).2
  have hn₀mem : ((1 : ℤ), (0 : ℤ), (0 : ℤ)) ∈ gridCoords 2 := by decide
  have hn₀ne : ((1 : ℤ), (0 : ℤ), (0 : ℤ)) ≠ origin9 := by decide
  have hlt : c ((1 : ℤ), (0 : ℤ), (0 : ℤ)) < c origin9 := by
    have h1 := hother _ hn₀mem hn₀ne
    linarith
  unfold dirStep
  dsimp only
  split
  · split
    · simp
    · split
      · simp
      · rename_i hg hA hB
        exfalso
        simp only [List.not_mem_nil, not_false_iff, and_true] at hA hB
        exact hB (le_of_not_lt hA)
  · rename_i hg
    exfalso
    apply hg
    refine ⟨by decide, ?_⟩
    have he : (origin9.1 + 1, origin9.2.1 + 0, origin9.2.2 + 0) =
        ((1 : ℤ), (0 : ℤ), (0 : ℤ)) := by decide
    rw [he]
    exact hlt

/-- Under the invariant, the freshly seeded queue `[origin]` survives its
processing: at least one append happens. -/
lemma processQueue_fresh_nonempty (sh : ℕ → List Coord) (g : ℕ) (c : Cube)
    (b : ℚ) (hperm : (sh g).Perm directions) (hb2 : 1 / 2 < b)
    (h : CInv b c) :
    (processQueue runP9 sh g [origin9] c).1 ≠ [] := by
  simp only [processQueue]
  rcases fold_from_nil runP9 origin9 c (sh g) with hne | ⟨-, hall⟩
  · exact hne
  · exfalso
    have hmem : ((1 : ℤ), (0 : ℤ), (0 : ℤ)) ∈ sh g :=
      hperm.mem_iff.mpr (by decide)
    have hstep := hall _ hmem
    have happ := dirStep_origin_appends c b hb2 ⟨h.1, h.2.1, h.2.2⟩
    rw [hstep] at happ
    exact happ rfl

/-- State invariant of the scenario at the top of step `i`: both counters
and the snapshot count equal `i`, the batch is non-empty with at most
`i + 1` queues of in-bounds coordinates, and the origin still holds at
least `1 - 66 i coefStd` of the unit total. -/
structure Inv9 (i : ℕ) (s : SimState) : Prop where
  iter : s.iterations = i
  pidx : s.prop_index = i
  slen : s.snaps.length = i
  qne : s.queues ≠ []
  qlen : s.queues.length ≤ i + 1
  qbnd : ∀ q ∈ s.queues, ∀ p ∈ q, inBounds 2 p
  cinv : CInv (1 - 66 * (i : ℚ) * coefStd) s.cube

/-- In the scenario the seed phase of step `i ≤ 9` never reheats (the
origin is already at `end_temp` at step 0, and `i % 1000 = i ≠ 0`
afterwards) and always appends a fresh `[origin]` queue. -/
lemma seedPhase_runP9 (s : SimState) (i : ℕ) (hpi : s.prop_index = i)
    (hile : i ≤ 9) (hc : CInv (1 - 66 * (i : ℚ) * coefStd) s.cube) :
    seedPhase runP9 s = (s.cube, s.queues ++ [[runP9.origin]]) := by
  unfold seedPhase
  by_cases h0 : i = 0
  · subst h0
    rw [if_pos (show s.prop_index % runP9.delay = 0 by
      rw [hpi]; exact Nat.zero_mod _)]
    have hO : (1 : ℚ) ≤ s.cube origin9 := by
      have hx := hc.2.2
      have he : (1 : ℚ) - 66 * ((0 : ℕ) : ℚ) * coefStd = 1 := by norm_num
      rw [he] at hx
      exact hx
    have hO1 : s.cube origin9 ≤ 1 := (CInv_cell_bounds hc).1
    rw [if_neg (show ¬s.cube runP9.origin < runP9.end_temp by
      show ¬s.cube origin9 < 1
      linarith)]
  · have h1 : ¬s.prop_index % runP9.delay = 0 := by
      rw [hpi]
      show ¬i % 1000 = 0
      rw [Nat.mod_eq_of_lt (by omega)]
      exact h0
    rw [if_neg h1, if_pos (show s.prop_index < runP9.delay by
      rw [hpi]; show i < 1000; omega)]

/-- Under the invariant, the far corner holds too little heat for the
convergence check to fire. -/
lemma runP9_not_allClose {c : Cube} {b : ℚ} (hb : 9 / 10 ≤ b)
    (h : CInv b c) : ¬allClose runP9 c := by
  intro hall
  have h111 : ((1 : ℤ), (1 : ℤ), (1 : ℤ)) ∈ gridCoords 2 := by decide
  have hne : ((1 : ℤ), (1 : ℤ), (1 : ℤ)) ≠ origin9 := by decide
  have hle := (CInv_cell_bounds h).2 _ h111 hne
  have hO := h.2.2
  have hcl := hall ((1 : ℤ), (1 : ℤ), (1 : ℤ)) h111
  rw [show runP9.end_temp = 1 from rfl,
    show runP9.delta_tolerance = 1 / 20 from rfl] at hcl
  have habs := abs_le.mp hcl
  linarith [habs.1]

/-- One step of the scenario: the convergence check never fires, the step
completes, and the invariant advances from `i` to `i + 1`. -/
lemma runP9_step (sh : ℕ → List Coord) (hsh : ∀ g, (sh g).Perm directions)
    (i : ℕ) (hi : i ≤ 9) (s : SimState) (h : Inv9 i s) :
    runStep runP9 sh s = (completedState runP9 sh s, false) ∧
      Inv9 (i + 1) (completedState runP9 sh s) := by
  have hlen6 : ∀ g, (sh g).length = 6 := fun g => by
    rw [(hsh g).length_eq]; rfl
  have hicast : (i : ℚ) ≤ 9 := by exact_mod_cast hi
  have hcoef := coefStd_pos
  have hbge : (9 : ℚ) / 10 ≤ 1 - 66 * (i : ℚ) * coefStd := by
    have h1 : 66 * (i : ℚ) ≤ 66 * 9 := by linarith
    have h2 : 66 * (i : ℚ) * coefStd ≤ 66 * 9 * coefStd :=
      mul_le_mul_of_nonneg_right h1 hcoef.le
    have h3 : (66 : ℚ) * 9 * coefStd ≤ 1 / 10 := by norm_num [coefStd]
    linarith
  have hseed := seedPhase_runP9 s i h.pidx hi h.cinv
  have hc1 : (seedPhase runP9 s).1 = s.cube := by rw [hseed]
  have hq1 : (seedPhase runP9 s).2 = s.queues ++ [[runP9.origin]] := by
    rw [hseed]
  have hna : ¬allClose runP9 (seedPhase runP9 s).1 := by
    rw [hc1]
    exact runP9_not_allClose hbge h.cinv
  have hrs : runStep runP9 sh s = (completedState runP9 sh s, false) := by
    unfold runStep
    rw [if_neg hna]
  refine ⟨hrs, ?_⟩
  have hqb1 : ∀ q ∈ ((seedPhase runP9 s).2).reverse, ∀ p ∈ q,
      inBounds 2 p := by
    intro q hq
    rw [List.mem_reverse] at hq
    rcases seedPhase_queues_mem hq with h' | h'
    · exact h.qbnd q h'
    · subst h'
      intro p hp
      rw [List.mem_singleton] at hp
      subst hp
      decide
  have hcube : (completedState runP9 sh s).cube =
      (processRev runP9 sh ((seedPhase runP9 s).2).reverse
        (seedPhase runP9 s).1 s.rng).2.1 := rfl
  have hqueues : (completedState runP9 sh s).queues =
      (processRev runP9 sh ((seedPhase runP9 s).2).reverse
        (seedPhase runP9 s).1 s.rng).1.reverse := rfl
  have hlen1 : ((seedPhase runP9 s).2).reverse.length = s.queues.length + 1 := by
    rw [List.length_reverse, hq1, List.length_append]
    rfl
  have hlenle : ((seedPhase runP9 s).2).reverse.length ≤ i + 2 := by
    rw [hlen1]
    have := h.qlen
    omega
  refine ⟨?_, ?_, ?_, ?_, ?_, ?_, ?_⟩
  · rw [show (completedState runP9 sh s).iterations = s.iterations + 1
      from rfl, h.iter]
  · rw [show (completedState runP9 sh s).prop_index = s.prop_index + 1
      from rfl, h.pidx]
  · rw [completedState_snaps, List.length_append, h.slen]
    rfl
  · rw [hqueues, ne_eq, List.reverse_eq_nil_iff]
    rw [show ((seedPhase runP9 s).2).reverse =
        [runP9.origin] :: s.queues.reverse by
      rw [hq1, List.reverse_append]; rfl]
    simp only [processRev]
    split
    · rename_i hemp
      exfalso
      refine processQueue_fresh_nonempty sh s.rng (seedPhase runP9 s).1
        (1 - 66 * (i : ℚ) * coefStd) (hsh s.rng) (by linarith) ?_ hemp
      rw [hc1]
      exact h.cinv
    · simp
  · rw [hqueues, List.length_reverse]
    refine le_trans (processRev_length_le runP9 sh _ _ _) ?_
    omega
  · rw [hqueues]
    intro q hq
    rw [List.mem_reverse] at hq
    exact processRev_bounds runP9 sh _ _ _ hqb1 q hq
  · rw [hcube]
    have hlcast : ((((seedPhase runP9 s).2).reverse.length : ℕ) : ℚ) ≤
        (i : ℚ) + 2 := by exact_mod_cast hlenle
    have h6 : 6 * ((((seedPhase runP9 s).2).reverse.length : ℕ) : ℚ) *
        coefStd ≤ 6 * ((i : ℚ) + 2) * coefStd :=
      mul_le_mul_of_nonneg_right (by linarith) hcoef.le
    have h660 : (6 : ℚ) * ((i : ℚ) + 2) * coefStd ≤ 660 * coefStd := by
      refine mul_le_mul_of_nonneg_right ?_ hcoef.le
      linarith
    have hhalf : (660 : ℚ) * coefStd < 1 / 2 := by norm_num [coefStd]
    have hbig : 66 * (i : ℚ) * coefStd ≤ 594 * coefStd := by
      refine mul_le_mul_of_nonneg_right ?_ hcoef.le
      linarith
    have h594 : (594 : ℚ) * coefStd + 66 * coefStd = 660 * coefStd := by ring
    have hcc := processRev_CInv sh hlen6 ((seedPhase runP9 s).2).reverse
      (seedPhase runP9 s).1 s.rng (1 - 66 * (i : ℚ) * coefStd) hqb1
      (by nlinarith) (by rw [hc1]; exact h.cinv)
    refine CInv_mono ?_ hcc
    push_cast
    nlinarith

/-- The scenario's loop runs its remaining `j` steps and exits exhausted
with 10 snapshots. -/
lemma runP9_loop (sh : ℕ → List Coord) (hsh : ∀ g, (sh g).Perm directions) :
    ∀ (j : ℕ) (s : SimState), j ≤ 10 → Inv9 (10 - j) s →
      (loop runP9 sh j s).map (fun rr => (rr.1.snaps.length, rr.2)) =
        some (10, TermState.exhausted) := by
  intro j
  induction j with
  | zero =>
    intro s hj h
    unfold loop
    rw [if_neg h.qne, if_pos (show runP9.max_iterations ≤ s.iterations by
      rw [h.iter, show runP9.max_iterations = 10 from rfl])]
    have hs : s.snaps.length = 10 := h.slen
    simp [hs]
  | succ j ih =>
    intro s hj h
    have hi : 10 - (j + 1) ≤ 9 := by omega
    have hstep := runP9_step sh hsh (10 - (j + 1)) hi s h
    have hsucc : 10 - (j + 1) + 1 = 10 - j := by omega
    rw [hsucc] at hstep
    unfold loop
    rw [if_neg h.qne, if_neg (show ¬runP9.max_iterations ≤ s.iterations by
      rw [h.iter, show runP9.max_iterations = 10 from rfl]
      omega)]
    rw [hstep.1]
    rw [if_neg (by simp)]
    exact ih _ (by omega) hstep.2

/-- C9: with `delay = 1000` and `max_iterations = 10` on the standard
2-cube configuration, every run — whatever permutations the shuffles
produce — terminates in the exhausted state with exactly 10 recorded
snapshots: the seed condition plants a fresh `[origin]` queue every step
and the origin stays hot enough that this queue always re-fills, so the
batch never empties before the iteration cap, and convergence is
impossible because the total heat is 1 for 8 cells. -/
theorem claim_C9_exhausted_with_ten_snapshots (sh : ℕ → List Coord)
    (hsh : ∀ g, (sh g).Perm directions) :
    (propagateRun runP9 sh).map (fun rr => (rr.1.snaps.length, rr.2)) =
      some (10, TermState.exhausted) := by
  have h0 : Inv9 0 (initState runP9) := by
    refine ⟨rfl, rfl, rfl, by simp [initState], by simp [initState], ?_, ?_⟩
    · intro q hq
      rw [show (initState runP9).queues = [[runP9.origin]] from rfl,
        List.mem_singleton] at hq
      subst hq
      intro p hp
      rw [List.mem_singleton] at hp
      subst hp
      decide
    · have he : (1 : ℚ) - 66 * ((0 : ℕ) : ℚ) * coefStd = 1 := by norm_num
      rw [he]
      refine ⟨?_, ?_, ?_⟩
      · intro p hp
        show 0 ≤ upd (fun _ => runP9.start_temp) runP9.origin
          (runP9.start_temp + runP9.increment) p
        unfold upd
        split
        · show (0 : ℚ) ≤ 0 + 1
          norm_num
        · show (0 : ℚ) ≤ 0
          norm_num
      · show gridSum 2 (upd (fun _ => runP9.start_temp) runP9.origin
          (runP9.start_temp + runP9.increment)) = 1
        rw [gridSum_upd_mem _ _ _ (show inBounds 2 runP9.origin by decide)]
        have hz : gridSum 2 (fun _ => runP9.start_temp) = 0 := by
          show ((gridCoords 2).map fun _ => (0 : ℚ)).sum = 0
          simp
        rw [hz]
        show (0 : ℚ) - (0 : ℚ) + ((0 : ℚ) + 1) = 1
        norm_num
      · show (1 : ℚ) ≤ upd (fun _ => runP9.start_temp) runP9.origin
          (runP9.start_temp + runP9.increment) origin9
        rw [show origin9 = runP9.origin from rfl, upd_same]
        show (1 : ℚ) ≤ 0 + 1
        norm_num
  exact runP9_loop sh hsh 10 (initState runP9) (le_refl 10) h0

/-- Witness for C9: the identity shuffle oracle, whose every output is
trivially a permutation of the direction list. -/
theorem claim_C9_exhausted_with_ten_snapshots_witness :
    (propagateRun runP9 shId).map (fun rr => (rr.1.snaps.length, rr.2)) =
      some (10, TermState.exhausted) :=
  claim_C9_exhausted_with_ten_snapshots shId
    (fun g => List.Perm.refl directions)
